import Mathlib

/-!
Verification of the TALQS document pipeline and persistence router.

Strings are modelled as `List Char`.  JavaScript string operations used by the
source (`split(/\s+/)`, `split(". ")`, `split(/[.!?]+/)`, `trim`, `includes`,
`toLowerCase`, array `join`, stable `sort`) are embedded as executable Lean
functions below; whitespace is modelled over the ASCII whitespace characters.
-/

namespace Talqs

/-- ASCII whitespace, modelling the characters matched by the `\s` class of the
JavaScript regexes in the source (restricted to ASCII). -/
def isWS (c : Char) : Bool :=
  c = ' ' || c = '\t' || c = '\n' || c = '\r' || c = Char.ofNat 11 || c = Char.ofNat 12

/-- Sentence-terminator characters of the QA fallback regex `[.!?]+`. -/
def isSentEnd (c : Char) : Bool :=
  c = '.' || c = '!' || c = '?'

/-- Auxiliary scanner for `splitRuns`: `inRun` records whether the previous
character belonged to a separator run, `cur` is the current piece reversed. -/
def splitRunsAux (p : Char → Bool) : Bool → List Char → List Char → List (List Char)
  | _, [], cur => [cur.reverse]
  | inRun, c :: rest, cur =>
    if p c then
      if inRun then splitRunsAux p true rest cur
      else cur.reverse :: splitRunsAux p true rest []
    else splitRunsAux p false rest (c :: cur)

/-- JavaScript `str.split(regex)` for a regex matching one maximal run of
characters satisfying `p` (used for `/\s+/` and `/[.!?]+/`): splits on maximal
separator runs, keeping empty pieces at the ends. -/
def splitRuns (p : Char → Bool) (l : List Char) : List (List Char) :=
  splitRunsAux p false l []

/-- JavaScript `str.split(/\s+/)`. -/
def splitWS (l : List Char) : List (List Char) :=
  splitRuns isWS l

/-- Word count `sentence.split(/\s+/).length` as used by `chunkText`. -/
def wordCount (l : List Char) : Nat :=
  (splitWS l).length

/-- The two-character separator `". "`. -/
def dotSpace : List Char := '.' :: ' ' :: []

/-- JavaScript `str.split(". ")`: split at each non-overlapping occurrence of
the two-character separator `". "`, scanning left to right. -/
def splitDot : List Char → List (List Char)
  | [] => [[]]
  | '.' :: ' ' :: rest => [] :: splitDot rest
  | c :: rest => (c :: (splitDot rest).headI) :: (splitDot rest).tail

/-- JavaScript `str.trim()` (over the modelled ASCII whitespace). -/
def trim (l : List Char) : List Char :=
  (((l.dropWhile isWS).reverse.dropWhile isWS)).reverse

/-- The function `cleanText` from the summarize route:
`text.trim().split(/\s+/).join(" ")`. -/
def cleanText (l : List Char) : List Char :=
  List.intercalate [' '] (splitWS (trim l))

/-- Rendering of one chunk, `currentChunk.join(". ") + "."`. -/
def joinDot (cur : List (List Char)) : List Char :=
  List.intercalate dotSpace cur ++ ['.']

/-- The sentence loop of `chunkText`: arguments are the remaining sentences,
`currentChunk`, `currentLength` and the accumulated `chunks`. -/
def chunkGo (maxLen : Nat) : List (List Char) → List (List Char) → Nat → List (List Char) → List (List Char)
  | [], cur, _, chunks => if 0 < cur.length then chunks ++ [joinDot cur] else chunks
  | s :: ss, cur, curLen, chunks =>
    if maxLen < curLen + wordCount s then
      chunkGo maxLen ss [s] (wordCount s) (chunks ++ [joinDot cur])
    else
      chunkGo maxLen ss (cur ++ [s]) (curLen + wordCount s) chunks

/-- The function `chunkText` from the summarize route (the `maxChunkLength` parameter
defaults to 1000 in the source; it is explicit here). -/
def chunkText (text : List Char) (maxChunkLength : Nat) : List (List Char) :=
  chunkGo maxChunkLength (splitDot text) [] 0 []

/-- The greedy sentence packing described by the specification: pack
consecutive sentences while the word count stays within the limit, start a new
segment on overflow, always emit the final partial segment, and emit an
overlong single sentence whole in its own segment. -/
def greedyGo (maxLen : Nat) : List (List Char) → List (List Char) → Nat → List (List (List Char))
  | [], cur, _ => [cur]
  | s :: ss, cur, curLen =>
    if maxLen < curLen + wordCount s then
      cur :: greedyGo maxLen ss [s] (wordCount s)
    else
      greedyGo maxLen ss (cur ++ [s]) (curLen + wordCount s)

/-- Sentence groups of the greedy chunking policy of the specification. -/
def greedyPack (maxLen : Nat) : List (List Char) → List (List (List Char))
  | [] => []
  | s :: ss => greedyGo maxLen ss [s] (wordCount s)

/-- The per-chunk extractive summarization fallback from the `catch` branch of
`summarizeChunks`: at most two sentences are returned unchanged, otherwise the
first and the middle sentence are concatenated. -/
def fallbackSummary (chunk : List Char) : List Char :=
  let sentences := splitDot chunk
  if sentences.length ≤ 2 then chunk
  else
    sentences.headI ++ dotSpace ++ sentences.getD (sentences.length / 2) [] ++ ['.']

/-- Model of `Promise.all` over already-settled outcomes: `some` of the list of results
when every call succeeded, `none` as soon as any call failed. -/
def allSome {α : Type} : List (Option α) → Option (List α)
  | [] => some []
  | none :: _ => none
  | some a :: rest => (allSome rest).map (a :: ·)

/-- The function `summarizeChunks`, with the remote summarization service abstracted as an
oracle `remote` mapping a chunk to its summary (`none` models a rejected
fetch: non-2xx status, timeout or transport error).  The source wraps one
`Promise.all` over all chunks in a single `try`/`catch` whose handler maps
`fallbackSummary` over every chunk. -/
def summarizeChunks (remote : List Char → Option (List Char)) (chunks : List (List Char)) : List (List Char) :=
  match allSome (chunks.map remote) with
  | some summaries => summaries
  | none => chunks.map fallbackSummary

/-! ### QA extractive fallback (`generateExtractiveAnswer` in the QA route) -/

/-- The apostrophe character. -/
def apos : Char := Char.ofNat 39

/-- Lowercasing, `question.toLowerCase()` (ASCII model). -/
def toLowerStr (l : List Char) : List Char :=
  l.map Char.toLower

/-- JavaScript `hay.includes(needle)`: substring test. -/
def substrB (needle : List Char) : List Char → Bool
  | [] => needle.isEmpty
  | c :: rest => needle.isPrefixOf (c :: rest) || substrB needle rest

/-- The stop-word denylist of the QA fallback. -/
def stopWords : List (List Char) :=
  ["what".data, "who".data, "when".data, "where".data, "why".data,
   "how".data, "the".data, "and".data, "this".data, "that".data]

/-- Sentence extraction, `documentContent.split(/[.!?]+/).filter(s => s.trim().length > 0)`. -/
def sentencesOf (d : List Char) : List (List Char) :=
  (splitRuns isSentEnd d).filter (fun s => !(trim s).isEmpty)

/-- The question tokens kept by the QA fallback: lowercase whitespace tokens of
length at least 4 that are not stop-words. -/
def questionWordsOf (q : List Char) : List (List Char) :=
  (splitWS (toLowerStr q)).filter (fun w => decide (3 < w.length) && !(stopWords.contains w))

/-- Score of one sentence: the number of kept question tokens it contains
(case-insensitive substring match). -/
def scoreSentence (qws : List (List Char)) (s : List Char) : Nat :=
  qws.countP (fun w => substrB w (toLowerStr s))

/-- The `scoredSentences` array of the QA fallback. -/
def scoredOf (d q : List Char) : List (List Char × Nat) :=
  (sentencesOf d).map (fun s => (s, scoreSentence (questionWordsOf q) s))

/-- One step of the stable descending insertion modelling JavaScript
`sort((a, b) => b.score - a.score)`: a new element is placed after every
already-placed element of greater-or-equal score. -/
def insDesc (x : List Char × Nat) : List (List Char × Nat) → List (List Char × Nat)
  | [] => [x]
  | y :: ys => if y.2 < x.2 then x :: y :: ys else y :: insDesc x ys

/-- Stable sort by descending score (JavaScript `Array.prototype.sort` is
stable; processing elements left to right keeps ties in original order). -/
def sortDesc (l : List (List Char × Nat)) : List (List Char × Nat) :=
  l.foldl (fun acc x => insDesc x acc) []

/-- The `topSentences` array: top three scored sentences, trimmed. -/
def topSentences (d q : List Char) : List (List Char) :=
  ((sortDesc (scoredOf d q)).take 3).map (fun p => trim p.1)

/-- The framing line of the zero-sentence branch of the QA fallback. -/
def noConfidentHeader : List Char :=
  "I couldn".data ++ [apos] ++
    "t find a specific answer to this question in the document. Here are some key excerpts that might be helpful:".data

/-- The framing line of the top-3 branch. -/
def basedHeader : List Char :=
  "Based on the document, I found this information that answers your question:".data

/-- The `\n\n` separator. -/
def nnSep : List Char := '\n' :: '\n' :: []

/-- The excerpts `[sentences[0], sentences[mid], sentences[last]]` of the
empty-top branch: JavaScript indexing out of range yields `undefined`, removed
by `.filter(Boolean)` together with empty strings, then each is trimmed. -/
def zeroScoreExcerpts (sentences : List (List Char)) : List (List Char) :=
  ((([sentences[0]?, sentences[sentences.length / 2]?,
      sentences[sentences.length - 1]?].filterMap id).filter
        (fun s => !s.isEmpty)).map trim)

/-- The function `generateExtractiveAnswer` from the QA route. -/
def generateExtractiveAnswer (d q : List Char) : List Char :=
  let sentences := sentencesOf d
  let top := topSentences d q
  if top.length = 0 then
    noConfidentHeader ++ nnSep ++ List.intercalate nnSep (zeroScoreExcerpts sentences)
  else
    basedHeader ++ nnSep ++ List.intercalate nnSep top

/-! ### The QA route (`POST` of `src/app/api/question-answer/route.ts`)

Network and database effects are abstracted as oracles; chat-history
persistence is recorded as the list of messages passed to `saveMessage`
(the save helper catches its own errors and never fails the request). -/

/-- Message author roles. -/
inductive Role
  | user
  | ai
deriving DecidableEq

/-- One message passed to `saveMessage`. -/
structure SavedMsg where
  role : Role
  content : List Char
deriving DecidableEq

/-- Outcome of the MongoDB document lookup by fingerprint: a thrown driver
error, no usable document, or a document with its content. -/
inductive DbFetch
  | dbError
  | dbNotFound
  | dbFound (content : List Char)

/-- The HTTP response of the QA route. -/
inductive QaOutcome
  | jsonOk (answer : List Char) (fallbackNote : Bool)
  | jsonOkBulk (answers : List (List Char × List Char))
  | jsonError (status : Nat) (message : List Char)
deriving DecidableEq

/-- Response plus the chat messages persisted while handling the request. -/
structure QaResult where
  outcome : QaOutcome
  saved : List SavedMsg
deriving DecidableEq

/-- JavaScript truthiness of an optional string (absent and `""` are falsy). -/
def jsTruthy : Option (List Char) → Bool
  | none => false
  | some s => !s.isEmpty

/-- JavaScript `a || b` on optional strings. -/
def jsOr (a b : Option (List Char)) : Option (List Char) :=
  if jsTruthy a then a else b

/-- The prefix `[Fallback Answer] `, prepended to persisted fallback answers. -/
def fallbackPrefix : List Char := "[Fallback Answer] ".data

/-- The helper `saveQuestionAndAnswer`: the question then the answer, the latter carrying
the fallback prefix when `isFallback` is set. -/
def saveQuestionAndAnswer (question answer : List Char) (isFallback : Bool) : List SavedMsg :=
  [⟨Role.user, question⟩,
   ⟨Role.ai, (if isFallback then fallbackPrefix else []) ++ answer⟩]

/-- Error message (status 400) for a missing question. -/
def questionRequiredMsg : List Char := "Question is required".data

/-- Success message (status 200) when the fingerprint lookup finds nothing usable. -/
def contentNotFoundMsg : List Char :=
  "I don".data ++ [apos] ++
    "t have enough information to answer that question. The document content could not be found. Please upload the document again.".data

/-- Success message (status 200) when the fingerprint lookup throws. -/
def dbErrorMsg : List Char :=
  "Sorry, there was an error retrieving the document. Please try again.".data

/-- Success message (status 200) when neither content nor fingerprint is supplied. -/
def noDocumentMsg : List Char :=
  "I don".data ++ [apos] ++
    "t have enough information to answer that question. Please upload a document first.".data

/-- Error message (status 500) of the outer catch handler. -/
def failedMsg : List Char := "Failed to process the question with custom model".data

/-- The literal question value selecting the bulk path. -/
def allLit : List Char := "all".data

/-- Single-question path: remote answer on success; on any remote failure the
catch block computes the fallback from the raw `documentContent` request field
(not the resolved content), which throws — surfacing as the outer 500 — when
that field is absent. -/
def qaSingle (question : List Char) (actual : List Char) (documentContent : Option (List Char))
    (remote : List Char → List Char → Option (List Char)) : QaResult :=
  match remote actual question with
  | some ans => ⟨QaOutcome.jsonOk ans false, saveQuestionAndAnswer question ans false⟩
  | none =>
    match documentContent with
    | some c =>
      let ans := generateExtractiveAnswer c question
      ⟨QaOutcome.jsonOk ans true, saveQuestionAndAnswer question ans true⟩
    | none => ⟨QaOutcome.jsonError 500 failedMsg, []⟩

/-- Bulk path (question equal to the literal `all`): the bulk endpoint also receives the raw
`documentContent` field, and its catch block is the same as the single path. -/
def qaBulk (question : List Char) (documentContent : Option (List Char))
    (remoteBulk : Option (List Char) → Option (List (List Char × List Char))) : QaResult :=
  match remoteBulk documentContent with
  | some answers =>
    ⟨QaOutcome.jsonOkBulk answers,
     (answers.map (fun p => saveQuestionAndAnswer p.1 p.2 false)).flatten⟩
  | none =>
    match documentContent with
    | some c =>
      let ans := generateExtractiveAnswer c question
      ⟨QaOutcome.jsonOk ans true, saveQuestionAndAnswer question ans true⟩
    | none => ⟨QaOutcome.jsonError 500 failedMsg, []⟩

/-- The `POST` handler of the QA route. -/
def qaPost (question : List Char) (documentContent fingerprint documentFingerprint : Option (List Char))
    (db : List Char → DbFetch)
    (remote : List Char → List Char → Option (List Char))
    (remoteBulk : Option (List Char) → Option (List (List Char × List Char))) : QaResult :=
  if question.isEmpty then ⟨QaOutcome.jsonError 400 questionRequiredMsg, []⟩
  else
    let docFp := jsOr fingerprint documentFingerprint
    let proceed := fun (actual : List Char) =>
      if question = allLit then qaBulk question documentContent remoteBulk
      else qaSingle question actual documentContent remote
    if !(jsTruthy documentContent) && jsTruthy docFp then
      match db (docFp.getD []) with
      | DbFetch.dbError => ⟨QaOutcome.jsonOk dbErrorMsg false, []⟩
      | DbFetch.dbNotFound => ⟨QaOutcome.jsonOk contentNotFoundMsg false, []⟩
      | DbFetch.dbFound c =>
        if c.isEmpty then ⟨QaOutcome.jsonOk contentNotFoundMsg false, []⟩
        else proceed c
    else if !(jsTruthy documentContent) then ⟨QaOutcome.jsonOk noDocumentMsg false, []⟩
    else proceed (documentContent.getD [])

/-! ### Firestore document store (`firebaseDocumentOps.saveDocument`) -/

/-- A stored document record. -/
structure FbDocument where
  docId : Nat
  userId : List Char
  fingerprint : List Char
  fileName : List Char
  fileSize : Nat
  uploadedAt : Nat
  lastAccessedAt : Nat
deriving DecidableEq

/-- The `documents` collection, with a fresh-id counter for `addDoc`. -/
structure FbStore where
  docs : List FbDocument
  nextId : Nat
deriving DecidableEq

/-- The query predicate `where(userId == u).where(fingerprint == fp)`. -/
def docMatches (u fp : List Char) (d : FbDocument) : Bool :=
  d.userId == u && d.fingerprint == fp

/-- Model of `updateDoc(ref, lastAccessedAt = serverTimestamp())` applied to the
record identified by `docId`. -/
def touchDoc (docId now : Nat) (e : FbDocument) : FbDocument :=
  if e.docId = docId then { e with lastAccessedAt := now } else e

/-- The function `saveDocument`: when a record for `(userId, fingerprint)` exists, update
its `lastAccessedAt` to the server timestamp `now` and return the previously
read data; otherwise insert a fresh record.  `available` models the
`isAvailable()` guard (and the catch handler), which returns `null` without
touching the store. -/
def saveDocument (available : Bool) (s : FbStore) (userId fingerprint fileName : List Char)
    (fileSize : Nat) (now : Nat) : FbStore × Option FbDocument :=
  if !available then (s, none)
  else
    match s.docs.filter (docMatches userId fingerprint) with
    | d :: _ =>
      ({ s with docs := s.docs.map (touchDoc d.docId now) }, some d)
    | [] =>
      let nd : FbDocument := ⟨s.nextId, userId, fingerprint, fileName, fileSize, now, now⟩
      ({ docs := s.docs ++ [nd], nextId := s.nextId + 1 }, some nd)

/-- Two records with distinct `(owner, fingerprint)` keys. -/
def pairDisjoint (a b : FbDocument) : Prop :=
  a.userId ≠ b.userId ∨ a.fingerprint ≠ b.fingerprint

/-- The dedup invariant: each `(owner, fingerprint)` pair has at most one
record. -/
def storeInv (s : FbStore) : Prop :=
  s.docs.Pairwise pairDisjoint

/-! ### Persistence router (`dataService` of the unified data service) -/

/-- The `DATABASE_PROVIDER` operating mode. -/
inductive DbProvider
  | mongodb
  | firebase
  | both
deriving DecidableEq

/-- The provider flags the router consults: `DATA_PROVIDERS.firebase` and the
operating mode. -/
structure DataConfig where
  firebaseEnabled : Bool
  provider : DbProvider
deriving DecidableEq

/-- Flag `DATA_PROVIDERS.mongodb = !!MONGODB_URI`; `MONGODB_URI` defaults to a
non-empty literal, so this flag is constantly true. -/
def mongodbEnabled : Bool := true

/-- Whether the router attempts the Firebase (primary) store. -/
def fbAttempted (cfg : DataConfig) : Bool :=
  cfg.firebaseEnabled &&
    (decide (cfg.provider = DbProvider.firebase) || decide (cfg.provider = DbProvider.both))

/-- Whether the router attempts the MongoDB (secondary) store. -/
def mongoAttempted (cfg : DataConfig) : Bool :=
  mongodbEnabled &&
    (decide (cfg.provider = DbProvider.mongodb) || decide (cfg.provider = DbProvider.both))

/-- The stub `mongoOps.chats.deleteChatHistory` is a placeholder that logs
`MongoDB deleteChatHistory not implemented yet` and returns `false`. -/
def mongoChatsDeleteResult : Bool := false

/-- The stub `mongoOps.users.deleteUser` is a placeholder that logs
`MongoDB deleteUser not implemented yet` and returns `false`. -/
def mongoUsersDeleteResult : Bool := false

/-- Router operation `dataService.chats.delete`: OR-accumulation of the attempted store
results, with the Firebase outcome abstracted as an oracle. -/
def chatsDelete (cfg : DataConfig) (firebaseResult : Bool) : Bool :=
  let success := false
  let success := if fbAttempted cfg then firebaseResult || success else success
  let success := if mongoAttempted cfg then mongoChatsDeleteResult || success else success
  success

/-- Router operation `dataService.users.delete`, same shape as `chatsDelete`. -/
def usersDelete (cfg : DataConfig) (firebaseResult : Bool) : Bool :=
  let success := false
  let success := if fbAttempted cfg then firebaseResult || success else success
  let success := if mongoAttempted cfg then mongoUsersDeleteResult || success else success
  success

/-! ### Auxiliary notions and concrete scenario data used by the theorems -/

/-- A string that does not contain the separator `". "`. -/
def noDotSpace (p : List Char) : Prop :=
  ¬ dotSpace <:+: p

/-- Descending-score order on scored sentences. -/
def scoreGE (a b : List Char × Nat) : Prop :=
  b.2 ≤ a.2

/-- Modelled from the spec (refinement reference for the zero-score claim):
first, middle and last sentence, deduplicated, under the no-confident
framing line. -/
def zeroScoreAnswerSpec (d : List Char) : List Char :=
  let sentences := sentencesOf d
  let picks := [sentences.headI, sentences.getD (sentences.length / 2) [],
    sentences.getD (sentences.length - 1) []]
  noConfidentHeader ++ nnSep ++ List.intercalate nnSep ((picks.map trim).dedup)

instance (a b : FbDocument) : Decidable (pairDisjoint a b) := by
  unfold pairDisjoint
  infer_instance

instance (p : List Char) : Decidable (noDotSpace p) := by
  unfold noDotSpace
  infer_instance

/-- A four-sentence chunk used in the summarization scenarios. -/
def chunkA : List Char := "A. B. C. D".data

/-- A one-sentence chunk used in the summarization scenarios. -/
def chunkB : List Char := "Hello there".data

/-- A remote-summarizer oracle that fails on `chunkA` and succeeds on
`chunkB`. -/
def remoteOne : List Char → Option (List Char) :=
  fun c => if c = chunkB then some ("S2".data) else none

/-- The two-chunk batch for the summarization scenarios. -/
def chunksOne : List (List Char) := [chunkA, chunkB]

/-- A concrete question for the QA scenarios. -/
def qaQuestion : List Char := "What is the penalty".data

/-- A concrete stored document for the QA scenarios. -/
def qaDoc : List Char := "The penalty is five years. More text here.".data

/-- A three-sentence document for the QA ranking scenario. -/
def qaDoc3 : List Char := "The law is old. The penalty is five years. Cats are nice.".data

/-- A database oracle resolving the fingerprint `fp1` to `qaDoc`. -/
def qaDb : List Char → DbFetch :=
  fun fp => if fp = "fp1".data then DbFetch.dbFound qaDoc else DbFetch.dbNotFound

/-- A QA inference service that is unavailable for every request. -/
def remoteDown : List Char → List Char → Option (List Char) :=
  fun _ _ => none

/-- A bulk QA endpoint that is unavailable for every request. -/
def bulkDown : Option (List Char) → Option (List (List Char × List Char)) :=
  fun _ => none

/-- Router configuration: Firebase enabled, operating mode `both`. -/
def cfgBoth : DataConfig := ⟨true, DbProvider.both⟩

/-- The empty document store. -/
def emptyStore : FbStore := ⟨[], 0⟩

/-! ## Lemmas about `splitDot` -/

theorem splitDot_ne_nil (l : List Char) : splitDot l ≠ [] := by
  induction l using splitDot.induct with
  | case1 => simp [splitDot]
  | case2 rest ih => simp [splitDot]
  | case3 c rest h ih =>
    rw [splitDot.eq_3 c rest h]
    simp

theorem splitDot_headI_shape (l : List Char) :
    (splitDot l).headI = [] ∨ (splitDot l).headI.head? = l.head? := by
  induction l using splitDot.induct with
  | case1 => left; simp [splitDot]
  | case2 rest ih => left; simp [splitDot]
  | case3 c rest h ih =>
    right
    rw [splitDot.eq_3 c rest h]
    simp

theorem noDotSpace_of_mem_splitDot (l : List Char) :
    ∀ p ∈ splitDot l, noDotSpace p := by
  induction l using splitDot.induct with
  | case1 =>
    intro p hmem
    simp [splitDot] at hmem
    subst hmem
    intro hinf
    simp [dotSpace] at hinf
  | case2 rest ih =>
    intro p hmem
    rw [splitDot.eq_2] at hmem
    rcases List.mem_cons.mp hmem with rfl | hmem
    · intro hinf
      simp [dotSpace] at hinf
    · exact ih p hmem
  | case3 c rest h ih =>
    intro p hmem
    rw [splitDot.eq_3 c rest h] at hmem
    obtain ⟨x, xs, hxs⟩ : ∃ x xs, splitDot rest = x :: xs := by
      cases hr : splitDot rest with
      | nil => exact absurd hr (splitDot_ne_nil rest)
      | cons x xs => exact ⟨x, xs, rfl⟩
    rw [hxs] at hmem
    simp only [List.headI, List.tail] at hmem
    rcases List.mem_cons.mp hmem with rfl | hmem
    · intro hinf
      rcases List.infix_cons_iff.mp hinf with hpre | hinf
      · rw [dotSpace, List.cons_prefix_cons] at hpre
        obtain ⟨hc, hsp⟩ := hpre
        cases x with
        | nil => simp at hsp
        | cons a x' =>
          rw [List.cons_prefix_cons] at hsp
          obtain ⟨ha, -⟩ := hsp
          rcases splitDot_headI_shape rest with hsh | hsh
          · rw [hxs] at hsh
            simp at hsh
          · rw [hxs] at hsh
            cases rest with
            | nil => simp at hsh
            | cons b rest' =>
              simp at hsh
              have hb : b = ' ' := by rw [← hsh, ← ha]
              exact h rest' hc.symm (by rw [hb])
      · have hxmem : x ∈ splitDot rest := by rw [hxs]; exact List.mem_cons_self x xs
        exact ih x hxmem hinf
    · have hpmem : p ∈ splitDot rest := by
        rw [hxs]
        exact List.mem_cons_of_mem x hmem
      exact ih p hpmem

theorem splitDot_of_noDotSpace {p : List Char} (h : noDotSpace p) : splitDot p = [p] := by
  induction p using splitDot.induct with
  | case1 => simp [splitDot]
  | case2 rest ih =>
    exact absurd ⟨[], rest, rfl⟩ h
  | case3 c rest hg ih =>
    have hr : noDotSpace rest := fun hi => h (List.infix_cons hi)
    rw [splitDot.eq_3 c rest hg, ih hr]
    simp

theorem splitDot_append_dotSpace :
    ∀ (p rest : List Char), noDotSpace p →
      splitDot (p ++ dotSpace ++ rest) = p :: splitDot rest := by
  intro p
  induction p with
  | nil =>
    intro rest _
    simp only [List.nil_append, dotSpace, List.cons_append, List.nil_append]
    rw [splitDot.eq_2]
  | cons c p' ih =>
    intro rest h
    have hguard : ∀ r : List Char, c = '.' → p' ++ dotSpace ++ rest = ' ' :: r → False := by
      intro r hc hr
      cases p' with
      | nil =>
        rw [dotSpace] at hr
        simp at hr
      | cons x p'' =>
        have hx : x = ' ' := by
          have := congrArg List.head? hr
          simpa using this
        subst hx
        subst hc
        exact h ⟨[], p'', rfl⟩
    have hstep : (c :: p') ++ dotSpace ++ rest = c :: (p' ++ dotSpace ++ rest) := by simp
    rw [hstep, splitDot.eq_3 c _ hguard]
    have hp' : noDotSpace p' := fun hi => h (List.infix_cons hi)
    rw [ih rest hp']
    simp

theorem splitDot_intercalate :
    ∀ (g : List (List Char)), g ≠ [] → (∀ p ∈ g, noDotSpace p) →
      splitDot (List.intercalate dotSpace g) = g := by
  intro g
  induction g with
  | nil => intro h _; exact absurd rfl h
  | cons p g' ih =>
    intro _ hall
    cases g' with
    | nil =>
      have : List.intercalate dotSpace [p] = p := by
        simp [List.intercalate, List.intersperse]
      rw [this]
      exact splitDot_of_noDotSpace (hall p (List.mem_cons_self p []))
    | cons q g'' =>
      have hstep : List.intercalate dotSpace (p :: q :: g'') =
          p ++ dotSpace ++ List.intercalate dotSpace (q :: g'') := by
        simp [List.intercalate, List.intersperse]
      rw [hstep, splitDot_append_dotSpace p _ (hall p (List.mem_cons_self p _))]
      rw [ih (by simp) (fun r hr => hall r (List.mem_cons_of_mem p hr))]

/-! ## Lemmas about `chunkText` and the greedy packing -/

theorem chunkGo_eq_greedyGo (maxLen : Nat) :
    ∀ (ss cur : List (List Char)) (curLen : Nat) (chunks : List (List Char)),
      cur ≠ [] →
      chunkGo maxLen ss cur curLen chunks = chunks ++ (greedyGo maxLen ss cur curLen).map joinDot := by
  intro ss
  induction ss with
  | nil =>
    intro cur curLen chunks hcur
    simp [chunkGo, greedyGo, List.length_pos, hcur]
  | cons s ss ih =>
    intro cur curLen chunks hcur
    by_cases h : maxLen < curLen + wordCount s
    · rw [chunkGo, greedyGo, if_pos h, if_pos h, ih [s] (wordCount s) _ (by simp)]
      simp
    · rw [chunkGo, greedyGo, if_neg h, if_neg h, ih (cur ++ [s]) _ _ (by simp)]

theorem greedyGo_flatten (maxLen : Nat) :
    ∀ (ss cur : List (List Char)) (curLen : Nat),
      (greedyGo maxLen ss cur curLen).flatten = cur ++ ss := by
  intro ss
  induction ss with
  | nil => intro cur curLen; simp [greedyGo]
  | cons s ss ih =>
    intro cur curLen
    by_cases h : maxLen < curLen + wordCount s
    · rw [greedyGo, if_pos h]
      simp [ih]
    · rw [greedyGo, if_neg h, ih]
      simp

theorem greedyGo_groups_ne_nil (maxLen : Nat) :
    ∀ (ss cur : List (List Char)) (curLen : Nat),
      cur ≠ [] → ∀ g ∈ greedyGo maxLen ss cur curLen, g ≠ [] := by
  intro ss
  induction ss with
  | nil =>
    intro cur curLen hcur g hg
    simp [greedyGo] at hg
    subst hg
    exact hcur
  | cons s ss ih =>
    intro cur curLen hcur g hg
    by_cases h : maxLen < curLen + wordCount s
    · rw [greedyGo, if_pos h] at hg
      rcases List.mem_cons.mp hg with rfl | hg
      · exact hcur
      · exact ih [s] (wordCount s) (by simp) g hg
    · rw [greedyGo, if_neg h] at hg
      exact ih (cur ++ [s]) _ (by simp) g hg

theorem greedyGo_groups_mem (maxLen : Nat) :
    ∀ (ss cur : List (List Char)) (curLen : Nat),
      ∀ g ∈ greedyGo maxLen ss cur curLen, ∀ x ∈ g, x ∈ cur ∨ x ∈ ss := by
  intro ss
  induction ss with
  | nil =>
    intro cur curLen g hg x hx
    simp [greedyGo] at hg
    subst hg
    exact Or.inl hx
  | cons s ss ih =>
    intro cur curLen g hg x hx
    by_cases h : maxLen < curLen + wordCount s
    · rw [greedyGo, if_pos h] at hg
      rcases List.mem_cons.mp hg with rfl | hg
      · exact Or.inl hx
      · rcases ih [s] (wordCount s) g hg x hx with hx' | hx'
        · simp at hx'
          subst hx'
          exact Or.inr (List.mem_cons_self x ss)
        · exact Or.inr (List.mem_cons_of_mem s hx')
    · rw [greedyGo, if_neg h] at hg
      rcases ih (cur ++ [s]) _ g hg x hx with hx' | hx'
      · rcases List.mem_append.mp hx' with hx'' | hx''
        · exact Or.inl hx''
        · simp at hx''
          subst hx''
          exact Or.inr (List.mem_cons_self x ss)
      · exact Or.inr (List.mem_cons_of_mem s hx')

/-- Exact characterization of `chunkText`: the greedy packing of the
specification, preceded by a spurious `"."` segment exactly when the very
first sentence already exceeds the limit. -/
theorem chunkText_characterization (t : List Char) (maxLen : Nat) :
    chunkText t maxLen =
      (if maxLen < wordCount ((splitDot t).headI) then [['.']] else []) ++
        (greedyPack maxLen (splitDot t)).map joinDot := by
  unfold chunkText
  obtain ⟨s, ss, hss⟩ : ∃ s ss, splitDot t = s :: ss := by
    cases h : splitDot t with
    | nil => exact absurd h (splitDot_ne_nil t)
    | cons s ss => exact ⟨s, ss, rfl⟩
  rw [hss]
  simp only [List.headI, greedyPack]
  by_cases h : maxLen < wordCount s
  · rw [chunkGo, if_pos (by simpa using h), if_pos h]
    rw [chunkGo_eq_greedyGo maxLen ss [s] (wordCount s) _ (by simp)]
    have hjd : joinDot [] = ['.'] := by simp [joinDot, dotSpace, List.intercalate]
    simp [hjd]
  · rw [chunkGo, if_neg (by simpa using h), if_neg h]
    simp only [List.nil_append, Nat.zero_add]
    rw [chunkGo_eq_greedyGo maxLen ss [s] (wordCount s) [] (by simp)]
    simp

theorem greedyPack_flatten (maxLen : Nat) (ss : List (List Char)) :
    (greedyPack maxLen ss).flatten = ss := by
  cases ss with
  | nil => simp [greedyPack]
  | cons s ss => rw [greedyPack, greedyGo_flatten]; rfl

theorem greedyPack_groups_ne_nil (maxLen : Nat) (ss : List (List Char)) :
    ∀ g ∈ greedyPack maxLen ss, g ≠ [] := by
  cases ss with
  | nil => simp [greedyPack]
  | cons s ss =>
    rw [greedyPack]
    exact greedyGo_groups_ne_nil maxLen ss [s] (wordCount s) (by simp)

theorem greedyPack_groups_mem (maxLen : Nat) (ss : List (List Char)) :
    ∀ g ∈ greedyPack maxLen ss, ∀ x ∈ g, x ∈ ss := by
  cases ss with
  | nil => simp [greedyPack]
  | cons s ss =>
    rw [greedyPack]
    intro g hg x hx
    rcases greedyGo_groups_mem maxLen ss [s] (wordCount s) g hg x hx with hx' | hx'
    · simp at hx'
      subst hx'
      exact List.mem_cons_self x ss
    · exact List.mem_cons_of_mem s hx'

theorem splitDot_dropLast_joinDot {g : List (List Char)} (hne : g ≠ [])
    (hfree : ∀ p ∈ g, noDotSpace p) :
    splitDot (joinDot g).dropLast = g := by
  rw [joinDot, List.dropLast_concat]
  exact splitDot_intercalate g hne hfree

/-- Lossless re-segmentation of `chunkText`, after stripping the single `"."`
the chunker appends to each segment, provided the first sentence is within
the limit. -/
theorem chunkText_resplit (t : List Char) (maxLen : Nat)
    (h : wordCount ((splitDot t).headI) ≤ maxLen) :
    ((chunkText t maxLen).map (fun c => splitDot c.dropLast)).flatten = splitDot t := by
  rw [chunkText_characterization, if_neg (Nat.not_lt.mpr h)]
  rw [List.nil_append, List.map_map]
  have hcongr : ∀ g ∈ greedyPack maxLen (splitDot t),
      ((fun c => splitDot c.dropLast) ∘ joinDot) g = id g := by
    intro g hg
    have hne : g ≠ [] := greedyPack_groups_ne_nil maxLen (splitDot t) g hg
    have hfree : ∀ p ∈ g, noDotSpace p := fun p hp =>
      noDotSpace_of_mem_splitDot t p (greedyPack_groups_mem maxLen (splitDot t) g hg p hp)
    simpa using splitDot_dropLast_joinDot hne hfree
  rw [List.map_congr_left hcongr, List.map_id, greedyPack_flatten]

/-! ## Lemmas about the stable descending sort of the QA fallback -/

theorem insDesc_perm (x : List Char × Nat) (l : List (List Char × Nat)) :
    (insDesc x l).Perm (x :: l) := by
  induction l with
  | nil => exact List.Perm.refl _
  | cons y ys ih =>
    rw [insDesc]
    by_cases hlt : y.2 < x.2
    · rw [if_pos hlt]
    · rw [if_neg hlt]
      exact (ih.cons y).trans (List.Perm.swap x y ys)

theorem sortDescAux_perm :
    ∀ (l acc : List (List Char × Nat)),
      (l.foldl (fun acc x => insDesc x acc) acc).Perm (acc ++ l) := by
  intro l
  induction l with
  | nil => intro acc; simp
  | cons x xs ih =>
    intro acc
    rw [List.foldl_cons]
    refine (ih (insDesc x acc)).trans ?_
    refine (List.Perm.append_right xs (insDesc_perm x acc)).trans ?_
    exact List.perm_middle.symm

theorem sortDesc_perm (l : List (List Char × Nat)) : (sortDesc l).Perm l := by
  simpa using sortDescAux_perm l []

theorem insDesc_sorted (x : List Char × Nat) {l : List (List Char × Nat)}
    (h : l.Pairwise scoreGE) : (insDesc x l).Pairwise scoreGE := by
  induction l with
  | nil => simp [insDesc, scoreGE]
  | cons y ys ih =>
    rw [List.pairwise_cons] at h
    obtain ⟨hy, hys⟩ := h
    rw [insDesc]
    by_cases hlt : y.2 < x.2
    · rw [if_pos hlt, List.pairwise_cons]
      refine ⟨?_, List.pairwise_cons.mpr ⟨hy, hys⟩⟩
      intro z hz
      rcases List.mem_cons.mp hz with rfl | hz
      · exact Nat.le_of_lt hlt
      · exact Nat.le_trans (hy z hz) (Nat.le_of_lt hlt)
    · rw [if_neg hlt, List.pairwise_cons]
      refine ⟨?_, ih hys⟩
      intro z hz
      have hz' := (insDesc_perm x ys).mem_iff.mp hz
      rcases List.mem_cons.mp hz' with rfl | hz'
      · exact Nat.not_lt.mp hlt
      · exact hy z hz'

theorem sortDescAux_sorted :
    ∀ (l acc : List (List Char × Nat)), acc.Pairwise scoreGE →
      (l.foldl (fun acc x => insDesc x acc) acc).Pairwise scoreGE := by
  intro l
  induction l with
  | nil => intro acc h; simpa using h
  | cons x xs ih =>
    intro acc h
    rw [List.foldl_cons]
    exact ih (insDesc x acc) (insDesc_sorted x h)

theorem sortDesc_sorted (l : List (List Char × Nat)) : (sortDesc l).Pairwise scoreGE := by
  exact sortDescAux_sorted l [] (by simp)

theorem insDesc_filter (x : List Char × Nat) {l : List (List Char × Nat)} (k : Nat)
    (h : l.Pairwise scoreGE) :
    (insDesc x l).filter (fun y => y.2 == k) =
      l.filter (fun y => y.2 == k) ++ (if x.2 = k then [x] else []) := by
  induction l with
  | nil =>
    by_cases hk : x.2 = k
    · have hb : (x.2 == k) = true := by simpa using hk
      simp [insDesc, List.filter_cons, hb, hk]
    · have hb : (x.2 == k) = false := by simpa using hk
      simp [insDesc, List.filter_cons, hb, hk]
  | cons y ys ih =>
    rw [List.pairwise_cons] at h
    obtain ⟨hy, hys⟩ := h
    rw [insDesc]
    by_cases hlt : y.2 < x.2
    · rw [if_pos hlt]
      by_cases hk : x.2 = k
      · have hnil : (y :: ys).filter (fun y => y.2 == k) = [] := by
          rw [List.filter_eq_nil_iff]
          intro z hz
          have hzle : z.2 ≤ y.2 := by
            rcases List.mem_cons.mp hz with rfl | hz'
            · exact Nat.le_refl _
            · exact hy z hz'
          have hzk : z.2 < k := by
            calc z.2 ≤ y.2 := hzle
              _ < x.2 := hlt
              _ = k := hk
          simp [Nat.ne_of_lt hzk]
        have hb : (x.2 == k) = true := by simpa using hk
        simp [List.filter_cons, hb, hnil, hk]
      · have hb : (x.2 == k) = false := by simpa using hk
        simp [List.filter_cons, hb, hk]
    · rw [if_neg hlt]
      rw [List.filter_cons, List.filter_cons, ih hys]
      by_cases hyk : (y.2 == k) = true
      · simp [hyk]
      · simp [hyk]

theorem sortDescAux_filter :
    ∀ (l acc : List (List Char × Nat)) (k : Nat), acc.Pairwise scoreGE →
      (l.foldl (fun acc x => insDesc x acc) acc).filter (fun y => y.2 == k) =
        acc.filter (fun y => y.2 == k) ++ l.filter (fun y => y.2 == k) := by
  intro l
  induction l with
  | nil => intro acc k h; simp
  | cons x xs ih =>
    intro acc k h
    rw [List.foldl_cons, ih (insDesc x acc) k (insDesc_sorted x h)]
    rw [insDesc_filter x k h]
    by_cases hk : x.2 = k
    · have hb : (x.2 == k) = true := by simpa using hk
      simp [List.filter_cons, hb, hk, List.append_assoc]
    · have hb : (x.2 == k) = false := by simpa using hk
      simp [List.filter_cons, hb, hk]

/-- Stability of the modelled JavaScript sort: the subsequence of sentences
with any fixed score is left in original order. -/
theorem sortDesc_filter (l : List (List Char × Nat)) (k : Nat) :
    (sortDesc l).filter (fun y => y.2 == k) = l.filter (fun y => y.2 == k) := by
  simpa using sortDescAux_filter l [] k (by simp)

theorem insDesc_of_no_lt (x : List Char × Nat) {l : List (List Char × Nat)}
    (h : ∀ y ∈ l, ¬ y.2 < x.2) : insDesc x l = l ++ [x] := by
  induction l with
  | nil => rfl
  | cons y ys ih =>
    rw [insDesc, if_neg (h y (List.mem_cons_self y ys))]
    rw [ih (fun z hz => h z (List.mem_cons_of_mem y hz))]
    rfl

theorem sortDescAux_of_all_zero :
    ∀ (l acc : List (List Char × Nat)), (∀ y ∈ l, y.2 = 0) → (∀ y ∈ acc, y.2 = 0) →
      l.foldl (fun acc x => insDesc x acc) acc = acc ++ l := by
  intro l
  induction l with
  | nil => intro acc _ _; simp
  | cons x xs ih =>
    intro acc hl hacc
    rw [List.foldl_cons]
    have hx : insDesc x acc = acc ++ [x] := by
      refine insDesc_of_no_lt x ?_
      intro y hy
      rw [hacc y hy, hl x (List.mem_cons_self x xs)]
      exact Nat.lt_irrefl 0
    rw [hx, ih (acc ++ [x]) (fun y hy => hl y (List.mem_cons_of_mem x hy)) ?side]
    · simp
    case side =>
      intro y hy
      rcases List.mem_append.mp hy with hy' | hy'
      · exact hacc y hy'
      · simp at hy'
        subst hy'
        exact hl y (List.mem_cons_self y xs)

/-- When every sentence scores zero the stable sort is the identity. -/
theorem sortDesc_of_all_zero {l : List (List Char × Nat)} (h : ∀ y ∈ l, y.2 = 0) :
    sortDesc l = l := by
  simpa using sortDescAux_of_all_zero l [] h (by simp)

/-! ## Lemmas about `generateExtractiveAnswer` -/

theorem sortDesc_length (l : List (List Char × Nat)) : (sortDesc l).length = l.length :=
  (sortDesc_perm l).length_eq

theorem generateExtractiveAnswer_of_ne_nil (d q : List Char) (h : sentencesOf d ≠ []) :
    generateExtractiveAnswer d q =
      basedHeader ++ nnSep ++
        List.intercalate nnSep (((sortDesc (scoredOf d q)).take 3).map (fun p => trim p.1)) := by
  have hlen : (sortDesc (scoredOf d q)).length ≠ 0 := by
    rw [sortDesc_length]
    simp only [scoredOf, List.length_map]
    simpa using h
  have htoplen : (topSentences d q).length ≠ 0 := by
    rw [topSentences, List.length_map, List.length_take]
    omega
  rw [generateExtractiveAnswer, if_neg htoplen]
  rfl

theorem generateExtractiveAnswer_of_nil (d q : List Char) (h : sentencesOf d = []) :
    generateExtractiveAnswer d q = noConfidentHeader ++ nnSep := by
  have hscored : scoredOf d q = [] := by simp [scoredOf, h]
  have htop : topSentences d q = [] := by
    simp [topSentences, hscored, sortDesc]
  rw [generateExtractiveAnswer, if_pos (by rw [htop]; rfl)]
  rw [h]
  simp [zeroScoreExcerpts, List.intercalate]

theorem generateExtractiveAnswer_all_zero (d q : List Char) (hne : sentencesOf d ≠ [])
    (hz : ∀ p ∈ scoredOf d q, p.2 = 0) :
    generateExtractiveAnswer d q =
      basedHeader ++ nnSep ++ List.intercalate nnSep (((sentencesOf d).take 3).map trim) := by
  rw [generateExtractiveAnswer_of_ne_nil d q hne, sortDesc_of_all_zero hz]
  congr 2
  rw [scoredOf, ← List.map_take, List.map_map]
  rfl

/-! ## Lemmas about `allSome` and `summarizeChunks` -/

theorem allSome_of_all_isSome (remote : List Char → Option (List Char)) :
    ∀ chunks : List (List Char), (∀ c ∈ chunks, (remote c).isSome) →
      allSome (chunks.map remote) = some (chunks.map (fun c => (remote c).getD [])) := by
  intro chunks
  induction chunks with
  | nil => intro _; rfl
  | cons c cs ih =>
    intro h
    obtain ⟨a, ha⟩ := Option.isSome_iff_exists.mp (h c (List.mem_cons_self c cs))
    rw [List.map_cons, List.map_cons, ha, allSome]
    rw [ih (fun x hx => h x (List.mem_cons_of_mem c hx))]
    simp [ha]

theorem allSome_of_exists_none (remote : List Char → Option (List Char)) :
    ∀ chunks : List (List Char), (∃ c ∈ chunks, remote c = none) →
      allSome (chunks.map remote) = none := by
  intro chunks
  induction chunks with
  | nil => intro h; simp at h
  | cons c cs ih =>
    intro h
    rw [List.map_cons]
    cases hc : remote c with
    | none => rfl
    | some a =>
      rw [allSome]
      obtain ⟨x, hx, hxn⟩ := h
      rcases List.mem_cons.mp hx with rfl | hx'
      · rw [hc] at hxn
        exact absurd hxn (by simp)
      · rw [ih ⟨x, hx', hxn⟩]
        rfl

/-! ## Lemmas about the document store -/

theorem touchDoc_userId (i t : Nat) (e : FbDocument) : (touchDoc i t e).userId = e.userId := by
  unfold touchDoc
  split <;> rfl

theorem touchDoc_fingerprint (i t : Nat) (e : FbDocument) :
    (touchDoc i t e).fingerprint = e.fingerprint := by
  unfold touchDoc
  split <;> rfl

theorem docMatches_touchDoc (u fp : List Char) (i t : Nat) (e : FbDocument) :
    docMatches u fp (touchDoc i t e) = docMatches u fp e := by
  rw [docMatches, docMatches, touchDoc_userId, touchDoc_fingerprint]

theorem pairDisjoint_touchDoc (i t : Nat) {a b : FbDocument} (h : pairDisjoint a b) :
    pairDisjoint (touchDoc i t a) (touchDoc i t b) := by
  unfold pairDisjoint at h ⊢
  rw [touchDoc_userId, touchDoc_userId, touchDoc_fingerprint, touchDoc_fingerprint]
  exact h

/-- One available `saveDocument` call preserves the dedup invariant and leaves
exactly one record for the saved pair, stamped with the given server time. -/
theorem saveDocument_step (s : FbStore) (u fp fn : List Char) (fs t : Nat) (hinv : storeInv s) :
    storeInv (saveDocument true s u fp fn fs t).1 ∧
      ((saveDocument true s u fp fn fs t).1.docs.filter (docMatches u fp)).map
        (fun d => d.lastAccessedAt) = [t] := by
  cases hq : s.docs.filter (docMatches u fp) with
  | nil =>
    unfold saveDocument
    simp only [Bool.not_true, Bool.false_eq_true, if_false, hq]
    constructor
    · unfold storeInv
      rw [List.pairwise_append]
      refine ⟨hinv, by simp, ?_⟩
      intro a ha b hb
      simp only [List.mem_singleton] at hb
      subst hb
      have hnm := List.filter_eq_nil_iff.mp hq a ha
      simp only [docMatches, Bool.and_eq_true, beq_iff_eq, not_and] at hnm
      by_cases hu : a.userId = u
      · exact Or.inr (hnm hu)
      · exact Or.inl hu
    · rw [List.filter_append, hq]
      simp [docMatches]
  | cons d ds =>
    have hdmem : d ∈ s.docs.filter (docMatches u fp) := by
      rw [hq]
      exact List.mem_cons_self d ds
    have hdm : docMatches u fp d = true := (List.mem_filter.mp hdmem).2
    have hpair : (s.docs.filter (docMatches u fp)).Pairwise pairDisjoint :=
      List.Pairwise.sublist (List.filter_sublist s.docs) hinv
    have hds : ds = [] := by
      cases ds with
      | nil => rfl
      | cons x xs =>
        rw [hq, List.pairwise_cons] at hpair
        have hdx : pairDisjoint d x := hpair.1 x (List.mem_cons_self x xs)
        have hxmem : x ∈ s.docs.filter (docMatches u fp) := by
          rw [hq]
          exact List.mem_cons_of_mem d (List.mem_cons_self x xs)
        have hxm : docMatches u fp x = true := (List.mem_filter.mp hxmem).2
        simp only [docMatches, Bool.and_eq_true, beq_iff_eq] at hdm hxm
        unfold pairDisjoint at hdx
        rcases hdx with hne | hne
        · exact absurd (hdm.1.trans hxm.1.symm) hne
        · exact absurd (hdm.2.trans hxm.2.symm) hne
    subst hds
    unfold saveDocument
    simp only [Bool.not_true, Bool.false_eq_true, if_false, hq]
    constructor
    · unfold storeInv
      exact List.Pairwise.map _ (fun a b hab => pairDisjoint_touchDoc d.docId t hab) hinv
    · rw [List.filter_map]
      have hcongr : s.docs.filter ((docMatches u fp) ∘ (touchDoc d.docId t)) =
          s.docs.filter (docMatches u fp) := by
        refine List.filter_congr ?_
        intro a _
        exact docMatches_touchDoc u fp d.docId t a
      rw [hcongr, hq]
      simp [touchDoc]

/-! ## Claim theorems -/

/-- C1 counterexample: with a two-chunk batch where the remote call fails only
on the first chunk, `summarizeChunks` does not keep the remote summary of the
second chunk: claimed per-chunk-independent failover would return the remote
summary `S2` for the second chunk, but the code replaces every chunk by the
extractive fallback. -/
theorem c1_counterexample :
    summarizeChunks remoteOne chunksOne = [fallbackSummary chunkA, chunkB] ∧
    chunksOne.map (fun c => (remoteOne c).getD (fallbackSummary c)) =
      [fallbackSummary chunkA, "S2".data] ∧
    summarizeChunks remoteOne chunksOne ≠
      chunksOne.map (fun c => (remoteOne c).getD (fallbackSummary c)) := by
  refine ⟨?_, ?_, ?_⟩ <;> decide

/-- C1 (amended): failover in `summarizeChunks` is batch-level, not per-chunk:
when the remote call succeeds for every chunk the remote summaries are returned in
order, and when the remote call fails for any single chunk, the summary of every chunk is
replaced by the extractive fallback, discarding the successful remote
summaries of the other chunks. -/
theorem c1_batch_failover (remote : List Char → Option (List Char)) (chunks : List (List Char)) :
    ((∀ c ∈ chunks, (remote c).isSome) →
      summarizeChunks remote chunks = chunks.map (fun c => (remote c).getD [])) ∧
    ((∃ c ∈ chunks, remote c = none) →
      summarizeChunks remote chunks = chunks.map fallbackSummary) := by
  constructor
  · intro h
    rw [summarizeChunks, allSome_of_all_isSome remote chunks h]
  · intro h
    rw [summarizeChunks, allSome_of_exists_none remote chunks h]

/-- C1 witness: the batch with one failing chunk falls back everywhere. -/
theorem c1_batch_failover_witness :
    (∃ c ∈ chunksOne, remoteOne c = none) ∧
      summarizeChunks remoteOne chunksOne = chunksOne.map fallbackSummary :=
  ⟨⟨chunkA, by decide, by decide⟩,
   (c1_batch_failover remoteOne chunksOne).2 ⟨chunkA, by decide, by decide⟩⟩

/-- C2: the code contradicts the claim at the fingerprint-resolved input: with
no inline content, a resolvable fingerprint and the QA service unavailable,
the catch block evaluates the fallback on the absent raw `documentContent`
field (instead of the resolved content), which throws and surfaces as the
outer 500 error response with nothing persisted; with the same document
supplied inline, the fallback answer is returned as HTTP success. -/
theorem c2_fallback_crash :
    qaPost qaQuestion none (some ("fp1".data)) none qaDb remoteDown bulkDown =
      ⟨QaOutcome.jsonError 500 failedMsg, []⟩ ∧
    qaPost qaQuestion (some qaDoc) none none qaDb remoteDown bulkDown =
      ⟨QaOutcome.jsonOk (generateExtractiveAnswer qaDoc qaQuestion) true,
       saveQuestionAndAnswer qaQuestion (generateExtractiveAnswer qaDoc qaQuestion) true⟩ := by
  constructor
  · rfl
  · rfl

/-- C3 counterexample: a document whose every sentence scores 0 against the
question does not take the first/middle/last path: the guard in the code is
`topSentences.length === 0`, which never fires on a non-empty sentence list,
so the top-3 path returns the first sentences under the `Based on the
document` framing rather than the claimed zero-score output. -/
theorem c3_counterexample :
    (∀ p ∈ scoredOf ("Alpha beta. Gamma delta.".data) qaQuestion, p.2 = 0) ∧
    generateExtractiveAnswer ("Alpha beta. Gamma delta.".data) qaQuestion ≠
      zeroScoreAnswerSpec ("Alpha beta. Gamma delta.".data) ∧
    generateExtractiveAnswer ("Alpha beta. Gamma delta.".data) qaQuestion =
      basedHeader ++ nnSep ++ List.intercalate nnSep ["Alpha beta".data, "Gamma delta".data] := by
  refine ⟨?_, ?_, ?_⟩ <;> decide

/-- C3 (amended): the first/middle/last branch is taken exactly when the
document yields no non-blank sentence at all, in which case the answer is the
no-confident framing line with no excerpts; on a document with at least one
sentence whose every sentence scores 0, the top-3 branch returns the first
`min(3, n)` sentences in original order under the `Based on the document`
framing. -/
theorem c3_zero_score_path (d q : List Char) :
    (sentencesOf d = [] → generateExtractiveAnswer d q = noConfidentHeader ++ nnSep) ∧
    (sentencesOf d ≠ [] → (∀ p ∈ scoredOf d q, p.2 = 0) →
      generateExtractiveAnswer d q =
        basedHeader ++ nnSep ++ List.intercalate nnSep (((sentencesOf d).take 3).map trim)) :=
  ⟨generateExtractiveAnswer_of_nil d q, generateExtractiveAnswer_all_zero d q⟩

/-- C3 witness: the all-zero-score document takes the top-3 branch. -/
theorem c3_zero_score_path_witness :
    sentencesOf ("Alpha beta. Gamma delta.".data) ≠ [] ∧
    generateExtractiveAnswer ("Alpha beta. Gamma delta.".data) qaQuestion =
      basedHeader ++ nnSep ++
        List.intercalate nnSep
          (((sentencesOf ("Alpha beta. Gamma delta.".data)).take 3).map trim) :=
  ⟨by decide, (c3_zero_score_path _ qaQuestion).2 (by decide) (by decide)⟩

/-- C4 counterexample: on a single sentence of four words with limit 3, the
code emits a spurious `"."` segment before the overlong sentence, so the
output is not the pure greedy packing the claim describes. -/
theorem c4_counterexample :
    chunkText ("a b c d".data) 3 = [".".data, "a b c d.".data] ∧
    (greedyPack 3 (splitDot ("a b c d".data))).map joinDot = ["a b c d.".data] ∧
    chunkText ("a b c d".data) 3 ≠ (greedyPack 3 (splitDot ("a b c d".data))).map joinDot := by
  refine ⟨?_, ?_, ?_⟩ <;> decide

/-- C4 (amended): `chunkText` splits on `". "` and produces exactly the greedy
word-count packing of the specification — final partial segment always
emitted, an overlong sentence kept whole in its own segment — except that when
the very first sentence alone exceeds the limit, one spurious segment
consisting of just `"."` is emitted in front (the code flushes the empty
current chunk before starting the new one). -/
theorem c4_greedy_chunking (t : List Char) (maxTokens : Nat) :
    chunkText t maxTokens =
      (if maxTokens < wordCount ((splitDot t).headI) then [['.']] else []) ++
        (greedyPack maxTokens (splitDot t)).map joinDot :=
  chunkText_characterization t maxTokens

/-- C5 counterexample: concatenating the segments of
`chunk(normalize(text), N)` and re-splitting does not reproduce the sentence
sequence of the normalized input: the chunker appends `"."` to each segment,
so the final sentence comes back altered (`"Gamma delta."` instead of
`"Gamma delta"`). -/
theorem c5_counterexample :
    splitDot ((chunkText (cleanText ("Alpha beta. Gamma delta".data)) 100).flatten) ≠
      splitDot (cleanText ("Alpha beta. Gamma delta".data)) ∧
    splitDot ((chunkText (cleanText ("Alpha beta. Gamma delta".data)) 100).flatten) =
      ["Alpha beta".data, "Gamma delta.".data] ∧
    splitDot (cleanText ("Alpha beta. Gamma delta".data)) =
      ["Alpha beta".data, "Gamma delta".data] := by
  refine ⟨?_, ?_, ?_⟩ <;> decide

/-- C5 (amended): after stripping from each segment the single `"."` the
chunker appends, the segments of `chunk(normalize(text), N)` re-split on
`". "` and concatenated in output order give exactly the sentence sequence of
the normalized input — no sentence dropped, duplicated or altered — provided
the word count of the first sentence is within the limit (otherwise the spurious
`"."` segment of C4 is also present). -/
theorem c5_lossless_resegmentation (t : List Char) (maxTokens : Nat)
    (h : wordCount ((splitDot (cleanText t)).headI) ≤ maxTokens) :
    ((chunkText (cleanText t) maxTokens).map (fun c => splitDot c.dropLast)).flatten =
      splitDot (cleanText t) :=
  chunkText_resplit (cleanText t) maxTokens h

/-- C5 witness: lossless re-segmentation on a concrete two-sentence text. -/
theorem c5_lossless_resegmentation_witness :
    wordCount ((splitDot (cleanText ("Alpha beta. Gamma delta".data))).headI) ≤ 100 ∧
    ((chunkText (cleanText ("Alpha beta. Gamma delta".data)) 100).map
        (fun c => splitDot c.dropLast)).flatten =
      splitDot (cleanText ("Alpha beta. Gamma delta".data)) :=
  ⟨by decide, c5_lossless_resegmentation ("Alpha beta. Gamma delta".data) 100 (by decide)⟩

/-- C6: the summarization fallback returns a chunk of at most two sentences
unchanged; on every chunk of at least three separator-free sentences — any
count, even or odd — it returns exactly
`sentence[0] ++ ". " ++ sentence[floor(count/2)] ++ "."`; in particular on a
four-sentence chunk it returns `sentence[0] ++ ". " ++ sentence[2] ++ "."`
(index 2 = floor(4/2)). -/
theorem c6_fallback_summary (chunk : List Char) (g : List (List Char)) :
    ((splitDot chunk).length ≤ 2 → fallbackSummary chunk = chunk) ∧
    ((∀ p ∈ g, noDotSpace p) → 3 ≤ g.length →
      fallbackSummary (List.intercalate dotSpace g) =
        g.headI ++ dotSpace ++ g.getD (g.length / 2) [] ++ ['.']) ∧
    (∀ s0 s1 s2 s3 : List Char,
      noDotSpace s0 → noDotSpace s1 → noDotSpace s2 → noDotSpace s3 →
      fallbackSummary (List.intercalate dotSpace [s0, s1, s2, s3]) =
        s0 ++ dotSpace ++ s2 ++ ['.']) := by
  have hgen : ∀ g' : List (List Char), (∀ p ∈ g', noDotSpace p) → 3 ≤ g'.length →
      fallbackSummary (List.intercalate dotSpace g') =
        g'.headI ++ dotSpace ++ g'.getD (g'.length / 2) [] ++ ['.'] := by
    intro g' hfree hlen
    have hgne : g' ≠ [] := by
      intro hnil
      rw [hnil] at hlen
      simp at hlen
    have hsp : splitDot (List.intercalate dotSpace g') = g' :=
      splitDot_intercalate g' hgne hfree
    rw [fallbackSummary]
    simp only [hsp]
    rw [if_neg (by omega)]
  refine ⟨?_, hgen g, ?_⟩
  · intro h
    simp [fallbackSummary, h]
  · intro s0 s1 s2 s3 h0 h1 h2 h3
    have hsp : splitDot (List.intercalate dotSpace [s0, s1, s2, s3]) = [s0, s1, s2, s3] := by
      refine splitDot_intercalate _ (by simp) ?_
      intro p hp
      simp only [List.mem_cons, List.not_mem_nil, or_false] at hp
      rcases hp with rfl | rfl | rfl | rfl
      · exact h0
      · exact h1
      · exact h2
      · exact h3
    simp [fallbackSummary, hsp, List.getD]

/-- C6 witness: one-sentence chunk unchanged; concrete four-sentence (even)
and three-sentence (odd) chunks hitting indices 2 = floor(4/2) and
1 = floor(3/2). -/
theorem c6_fallback_summary_witness :
    ((splitDot chunkB).length ≤ 2 ∧ fallbackSummary chunkB = chunkB) ∧
    fallbackSummary ("A one. B two. C three. D four".data) =
      "A one".data ++ dotSpace ++ "C three".data ++ ['.'] ∧
    fallbackSummary ("A one. B two. C three".data) =
      "A one".data ++ dotSpace ++ "B two".data ++ ['.'] := by
  refine ⟨⟨by decide, (c6_fallback_summary chunkB []).1 (by decide)⟩, ?_, ?_⟩
  · have h := (c6_fallback_summary [] []).2.2 ("A one".data) ("B two".data) ("C three".data)
      ("D four".data) (by decide) (by decide) (by decide) (by decide)
    have heq : List.intercalate dotSpace
        ["A one".data, "B two".data, "C three".data, "D four".data] =
        "A one. B two. C three. D four".data := by decide
    rw [heq] at h
    exact h
  · have h := (c6_fallback_summary []
      ["A one".data, "B two".data, "C three".data]).2.1 (by decide) (by decide)
    have heq : List.intercalate dotSpace
        ["A one".data, "B two".data, "C three".data] =
        "A one. B two. C three".data := by decide
    rw [heq] at h
    exact h.trans (by decide)

/-- C7: the ranking of the QA fallback is the stable descending sort of the scored
sentences: a permutation, sorted by descending score, ties kept in original
order (the filtered subsequence at each score value is unchanged), positive
scores always ahead of zero scores, and on any document with at least one
sentence the answer is the top three trimmed sentences of that order under the
`Based on the document` framing. -/
theorem c7_qa_ranking (d q : List Char) :
    (sortDesc (scoredOf d q)).Perm (scoredOf d q) ∧
    (sortDesc (scoredOf d q)).Pairwise scoreGE ∧
    (∀ k : Nat, (sortDesc (scoredOf d q)).filter (fun y => y.2 == k) =
      (scoredOf d q).filter (fun y => y.2 == k)) ∧
    (sortDesc (scoredOf d q)).Pairwise (fun a b => 0 < b.2 → 0 < a.2) ∧
    (sentencesOf d ≠ [] →
      generateExtractiveAnswer d q =
        basedHeader ++ nnSep ++
          List.intercalate nnSep
            (((sortDesc (scoredOf d q)).take 3).map (fun p => trim p.1))) := by
  refine ⟨sortDesc_perm _, sortDesc_sorted _, fun k => sortDesc_filter _ k, ?_,
    generateExtractiveAnswer_of_ne_nil d q⟩
  exact (sortDesc_sorted _).imp (fun hab h => Nat.lt_of_lt_of_le h hab)

/-- C7 witness: on a document where exactly one sentence contains the kept
question token `penalty`, that sentence ranks first (score row `[1, 0, 0]`)
and the returned answer is built from that order. -/
theorem c7_qa_ranking_witness :
    sentencesOf qaDoc3 ≠ [] ∧
    generateExtractiveAnswer qaDoc3 qaQuestion =
      basedHeader ++ nnSep ++
        List.intercalate nnSep
          (((sortDesc (scoredOf qaDoc3 qaQuestion)).take 3).map (fun p => trim p.1)) ∧
    (sortDesc (scoredOf qaDoc3 qaQuestion)).map (fun p => p.2) = [1, 0, 0] :=
  ⟨by decide, (c7_qa_ranking qaDoc3 qaQuestion).2.2.2.2 (by decide), by decide⟩

/-- C8: `saveDocument` preserves the (owner, fingerprint) uniqueness
invariant; saving twice with the same owner and fingerprint leaves exactly one
record for the pair, whose last-accessed-at is the second server timestamp,
advancing monotonically from the first. -/
theorem c8_document_dedup (s : FbStore) (u fp fn : List Char) (fs t1 t2 : Nat)
    (hinv : storeInv s) (hmono : t1 ≤ t2) :
    storeInv (saveDocument true s u fp fn fs t1).1 ∧
    storeInv (saveDocument true (saveDocument true s u fp fn fs t1).1 u fp fn fs t2).1 ∧
    ((saveDocument true s u fp fn fs t1).1.docs.filter (docMatches u fp)).map
      (fun d => d.lastAccessedAt) = [t1] ∧
    ((saveDocument true (saveDocument true s u fp fn fs t1).1 u fp fn fs t2).1.docs.filter
      (docMatches u fp)).map (fun d => d.lastAccessedAt) = [t2] ∧
    ((saveDocument true (saveDocument true s u fp fn fs t1).1 u fp fn fs t2).1.docs.filter
      (docMatches u fp)).length = 1 ∧
    (∀ a ∈ (saveDocument true s u fp fn fs t1).1.docs.filter (docMatches u fp),
     ∀ b ∈ (saveDocument true (saveDocument true s u fp fn fs t1).1 u fp fn fs t2).1.docs.filter
        (docMatches u fp), a.lastAccessedAt ≤ b.lastAccessedAt) := by
  obtain ⟨h1, hf1⟩ := saveDocument_step s u fp fn fs t1 hinv
  obtain ⟨h2, hf2⟩ := saveDocument_step _ u fp fn fs t2 h1
  refine ⟨h1, h2, hf1, hf2, ?_, ?_⟩
  · have hlen := congrArg List.length hf2
    simpa using hlen
  · intro a ha b hb
    have ha' : a.lastAccessedAt = t1 := by
      have hmem : a.lastAccessedAt ∈
          ((saveDocument true s u fp fn fs t1).1.docs.filter (docMatches u fp)).map
            (fun d => d.lastAccessedAt) := List.mem_map_of_mem _ ha
      rw [hf1] at hmem
      simpa using hmem
    have hb' : b.lastAccessedAt = t2 := by
      have hmem : b.lastAccessedAt ∈
          ((saveDocument true (saveDocument true s u fp fn fs t1).1 u fp fn fs t2).1.docs.filter
            (docMatches u fp)).map (fun d => d.lastAccessedAt) := List.mem_map_of_mem _ hb
      rw [hf2] at hmem
      simpa using hmem
    rw [ha', hb']
    exact hmono

/-- C8 witness: two saves of the same pair into the empty store leave one
record stamped with the second timestamp. -/
theorem c8_document_dedup_witness :
    storeInv emptyStore ∧ (0 : Nat) ≤ 1 ∧
    ((saveDocument true (saveDocument true emptyStore ("alice".data) ("fp".data)
        ("doc.txt".data) 7 0).1 ("alice".data) ("fp".data) ("doc.txt".data) 7 1).1.docs.filter
      (docMatches ("alice".data) ("fp".data))).map (fun d => d.lastAccessedAt) = [1] :=
  ⟨by simp [storeInv, emptyStore], by decide,
   (c8_document_dedup emptyStore ("alice".data) ("fp".data) ("doc.txt".data) 7 0 1
     (by simp [storeInv, emptyStore]) (by decide)).2.2.2.1⟩

/-- C9: the scenario of the claim cannot occur in this code: the secondary
(MongoDB) delete adapters are unimplemented stubs that constantly report
failure, so in `both` mode the router result equals the primary result, and
with the primary failing the router returns false — there is no state in
which the delete of the secondary store succeeds. -/
theorem c9_delete_stub :
    mongoChatsDeleteResult = false ∧
    mongoUsersDeleteResult = false ∧
    (∀ fbResult : Bool, chatsDelete cfgBoth fbResult = fbResult) ∧
    chatsDelete cfgBoth false = false ∧
    usersDelete cfgBoth false = false := by
  refine ⟨rfl, rfl, ?_, rfl, rfl⟩
  intro b
  cases b <;> rfl

/-- C10: on the single-question path with inline content, the persisted
assistant message is exactly the returned answer on remote success, and on
the fallback path it is the returned answer with `[Fallback Answer] `
prepended — hence always different from what the caller receives. -/
theorem c10_persisted_transcript (q c : List Char) (db : List Char → DbFetch)
    (remote : List Char → List Char → Option (List Char))
    (remoteBulk : Option (List Char) → Option (List (List Char × List Char)))
    (hq : q ≠ []) (hall : q ≠ allLit) (hc : c ≠ []) :
    (∀ a, remote c q = some a →
      qaPost q (some c) none none db remote remoteBulk =
        ⟨QaOutcome.jsonOk a false, [⟨Role.user, q⟩, ⟨Role.ai, a⟩]⟩) ∧
    (remote c q = none →
      qaPost q (some c) none none db remote remoteBulk =
        ⟨QaOutcome.jsonOk (generateExtractiveAnswer c q) true,
         [⟨Role.user, q⟩, ⟨Role.ai, fallbackPrefix ++ generateExtractiveAnswer c q⟩]⟩ ∧
      fallbackPrefix ++ generateExtractiveAnswer c q ≠ generateExtractiveAnswer c q) := by
  have hqe : q.isEmpty = false := by simp [List.isEmpty_eq_false, hq]
  have hce : c.isEmpty = false := by simp [List.isEmpty_eq_false, hc]
  have hpost : qaPost q (some c) none none db remote remoteBulk = qaSingle q c (some c) remote := by
    rw [qaPost]
    simp [hqe, jsTruthy, jsOr, hce, hall]
  constructor
  · intro a ha
    rw [hpost, qaSingle, ha]
    rfl
  · intro hn
    rw [hpost, qaSingle, hn]
    refine ⟨rfl, ?_⟩
    intro heq
    have hlen := congrArg List.length heq
    simp [fallbackPrefix] at hlen
    omega

/-- C10 witness: concrete fallback exchange with the prefixed transcript. -/
theorem c10_persisted_transcript_witness :
    qaPost qaQuestion (some qaDoc) none none qaDb remoteDown bulkDown =
      ⟨QaOutcome.jsonOk (generateExtractiveAnswer qaDoc qaQuestion) true,
       [⟨Role.user, qaQuestion⟩,
        ⟨Role.ai, fallbackPrefix ++ generateExtractiveAnswer qaDoc qaQuestion⟩]⟩ ∧
    fallbackPrefix ++ generateExtractiveAnswer qaDoc qaQuestion ≠
      generateExtractiveAnswer qaDoc qaQuestion :=
  (c10_persisted_transcript qaQuestion qaDoc qaDb remoteDown bulkDown
    (by decide) (by decide) (by decide)).2 rfl

end Talqs
